import Mathlib

/-!
Verification development for the polymarket-grapher acquisition and
alignment core.  The Python sources (`plotter.py`, `crypto_api.py`,
`polymarket_api.py`, `app2.py`) are shallowly embedded: timestamps are
`Int` (seconds since epoch), prices are `ℚ`, pandas missing values
(`NaN` from `reindex`) are `Option` `none`, Python exceptions are
`Except.error`, and upstream HTTP traffic is an explicit response
oracle.
-/

namespace PolymarketGrapher

/-- A canonical price point: `(timestamp_seconds, price)`. -/
abbrev Point : Type := Int × ℚ

/-- A canonical series: an ordered list of price points. -/
abbrev Series : Type := List Point

/-- Timestamps of a series. -/
def tsOf (s : Series) : List Int := s.map Prod.fst

/-- The canonical-series invariant: strictly increasing timestamps. -/
def StrictTs (s : Series) : Prop := List.Sorted (· < ·) (tsOf s)

instance (s : Series) : Decidable (StrictTs s) := by
  unfold StrictTs List.Sorted
  infer_instance

/-! ## plotter.py, `build_step_aligned_df`

```python
if not series_map: return pd.DataFrame()
all_index = union of s.index over series_map.values()
df = pd.DataFrame(index=all_index).sort_index()
for name, s in series_map.items():
    df[name] = s.reindex(df.index).ffill()
```

`pd.Index.union` yields the sorted duplicate-free union; `reindex`
places each series' value at exact index matches and `NaN` elsewhere;
`ffill` carries the last non-`NaN` value forward. -/

/-- Sorted duplicate-free union of the timestamps of all series
(`pd.Index.union` over the map's values, then `sort_index`). -/
def unionIndex (seriesList : List Series) : List Int :=
  ((seriesList.map tsOf).flatten.dedup).insertionSort (· ≤ ·)

/-- `s.reindex([t])` at a single label `t`: the value of `s` at exactly
`t`, if any (`NaN` i.e. `none` otherwise). -/
def reindexAt (s : Series) (t : Int) : Option ℚ :=
  match s with
  | [] => none
  | (u, v) :: rest => if u = t then some v else reindexAt rest t

/-- `ffill` over the reindexed values: walk the index carrying the last
non-`NaN` value. -/
def ffillFrom (s : Series) (carry : Option ℚ) : List Int → List (Int × Option ℚ)
  | [] => []
  | t :: rest =>
      let v : Option ℚ :=
        match reindexAt s t with
        | some p => some p
        | none => carry
      (t, v) :: ffillFrom s v rest

/-- `s.reindex(idx).ffill()`. -/
def reindexFfill (s : Series) (idx : List Int) : List (Int × Option ℚ) :=
  ffillFrom s none idx

/-- An aligned data frame: the row index plus one value column per
named series, each column listed in row-index order. -/
abbrev AlignedDF : Type := List Int × List (String × List (Int × Option ℚ))

/-- `build_step_aligned_df` from `plotter.py`. -/
def build_step_aligned_df (series_map : List (String × Series)) : AlignedDF :=
  let idx := unionIndex (series_map.map Prod.snd)
  (idx, series_map.map (fun nv => (nv.1, reindexFfill nv.2 idx)))

/-- Spec-side forward fill: the most recent value of `s` at or before
`t` (`none` when `t` precedes every point).  For a canonical (sorted)
series the last listed point with timestamp `≤ t` is the most recent
one. -/
def mostRecentAt (s : Series) (t : Int) : Option ℚ :=
  match s with
  | [] => none
  | (u, v) :: rest =>
      if u ≤ t then
        match mostRecentAt rest t with
        | some w => some w
        | none => some v
      else mostRecentAt rest t

/-! ## plotter.py, `make_chart` — the SUM trace

```python
if show_sum and len(prob_df.columns) >= 2:
    s = prob_df.sum(axis=1) * 100.0
```

`DataFrame.sum(axis=1)` uses pandas' default `skipna=True`: each row's
sum ranges over the non-`NaN` cells only, and an all-`NaN` row sums to
`0.0`.  The trace therefore carries a numeric value at every row of the
frame. -/

/-- The value a column of the aligned frame holds at row label `t`. -/
def colValueAt (col : List (Int × Option ℚ)) (t : Int) : Option ℚ :=
  match col with
  | [] => none
  | (u, v) :: rest => if u = t then v else colValueAt rest t

/-- A pandas row-wise sum with the default `skipna=True`: `NaN` cells
are dropped, an all-`NaN` row sums to `0`. -/
def skipnaSum (vals : List (Option ℚ)) : ℚ := (vals.filterMap id).sum

/-- `prob_df.sum(axis=1) * 100.0` evaluated over the aligned frame's
row index. -/
def make_chart_sum_trace (df : AlignedDF) : List (Int × ℚ) :=
  df.1.map (fun t => (t, skipnaSum (df.2.map (fun col => colValueAt col.2 t)) * 100))

/-- The SUM trace `make_chart` adds: present exactly when `show_sum`
is set and the frame has at least two columns. -/
def make_chart_sum (df : AlignedDF) (show_sum : Bool) : Option (List (Int × ℚ)) :=
  if show_sum = true ∧ 2 ≤ df.2.length then some (make_chart_sum_trace df) else none

/-- Spec-side NaN-propagating row sum: defined only when every column
has a value at the row. -/
def sumAllDefined (vals : List (Option ℚ)) : Option ℚ :=
  if vals.all Option.isSome then some (vals.filterMap id).sum else none

/-! ## polymarket_api.py, `fetch_token_price_history`

```python
hist = data.get("history") or []
out = []
for pt in hist:
    t = pt.get("t"); p = pt.get("p")
    if t is None or p is None: continue
    out.append((int(t), float(p)))
if not out: raise PolymarketError(...)
return out
```

The decoded upstream `history` list is the model's input; a raw point
is a pair of optional fields (`None` when the key is missing). -/

/-- A decoded upstream history entry: optional `t` and `p` fields. -/
abbrev RawPoint : Type := Option Int × Option ℚ

/-- The well-formed points of an upstream history, in upstream order:
entries with both fields present, the others skipped. -/
def wellFormedPoints (hist : List RawPoint) : Series :=
  hist.filterMap (fun pt =>
    match pt with
    | (some t, some p) => some (t, p)
    | _ => none)

/-- `fetch_token_price_history` after JSON decoding. -/
def fetch_token_price_history (hist : List RawPoint) : Except String Series :=
  let out := wellFormedPoints hist
  if out = [] then Except.error "empty price history for token" else Except.ok out

/-! ## crypto_api.py, `fetch_crypto_price_range`

The upstream is an oracle `responses : Nat → KrakenResp` giving the
body of the `n`-th HTTP request.  Each OHLC row keeps the two fields
the code reads: `row[0]` (open time) and `row[4]` (close). -/

/-- A decoded 200-response body: the `error` list, the first list value
among the `result` keys other than `last` (`none` when absent), and
the `last` cursor. -/
structure KrakenOk where
  err : List String
  ohlc : Option (List (Int × ℚ))
  last : Option Int
deriving DecidableEq

/-- One upstream HTTP exchange: a 429, another non-200 status, or a
decoded 200 body. -/
inductive KrakenResp where
  | status429 : KrakenResp
  | statusErr : Int → KrakenResp
  | ok : KrakenOk → KrakenResp
deriving DecidableEq

/-- The inner row loop: skip rows before `start_ts`, stop at the first
row past `end_ts` (`break`), keep `(time, close)` otherwise. -/
def clipRows (start_ts end_ts : Int) : List (Int × ℚ) → Series
  | [] => []
  | (t, c) :: rest =>
      if t < start_ts then clipRows start_ts end_ts rest
      else if end_ts < t then []
      else (t, c) :: clipRows start_ts end_ts rest

/-- Association-list lookup by decidable key equality (`dict` lookup /
`in` test). -/
def lookupKey {K V : Type} [DecidableEq K] (k : K) : List (K × V) → Option V
  | [] => none
  | (k2, v) :: rest => if k2 = k then some v else lookupKey k rest

/-- `PAIR_MAP` from `crypto_api.py`. -/
def PAIR_MAP : List (String × String) :=
  [("BTC", "XBTUSD"), ("ETH", "ETHUSD"), ("SOL", "SOLUSD")]

/-- Python's `str.upper()` on the symbol strings in play (ASCII):
uppercase every character. -/
def pyUpper (s : String) : String := String.mk (s.data.map Char.toUpper)

/-- The `for _ in range(max_iters)` pagination loop.  Arguments:
remaining iterations (fuel), requests issued so far, current `since`,
accumulated `out`.  Returns the outcome together with the total number
of requests issued. -/
def krakenLoop (start_ts end_ts : Int) (responses : Nat → KrakenResp) :
    Nat → Nat → Int → Series → (Except String Series) × Nat
  | 0, calls, _, out => (Except.ok out, calls)
  | fuel + 1, calls, since, out =>
      match responses calls with
      | KrakenResp.status429 =>
          krakenLoop start_ts end_ts responses fuel (calls + 1) since out
      | KrakenResp.statusErr _ => (Except.error "Kraken HTTP error", calls + 1)
      | KrakenResp.ok body =>
          if body.err ≠ [] then (Except.error "Kraken error", calls + 1)
          else
            let ohlc := body.ohlc.getD []
            if ohlc = [] then (Except.ok out, calls + 1)
            else
              let out2 := out ++ clipRows start_ts end_ts ohlc
              match body.last with
              | none => (Except.ok out2, calls + 1)
              | some lastC =>
                  if lastC = 0 then (Except.ok out2, calls + 1)
                  else if lastC ≤ since then (Except.ok out2, calls + 1)
                  else if end_ts < lastC then (Except.ok out2, calls + 1)
                  else krakenLoop start_ts end_ts responses fuel (calls + 1) lastC out2

/-- `sorted(..., key=lambda x: x[0])`: stable sort of point pairs by
timestamp. -/
def sortByTs (s : Series) : Series :=
  s.insertionSort (fun a b => a.1 ≤ b.1)

/-- `sorted(set(out), key=lambda x: x[0])`: drop duplicate pairs, then
sort by timestamp. -/
def normalizeOut (out : Series) : Series := sortByTs out.dedup

/-- `fetch_crypto_price_range`, with the number of HTTP requests made
returned alongside the outcome. -/
def fetch_crypto_price_range (symbol : String) (start_ts end_ts : Int)
    (responses : Nat → KrakenResp) : (Except String Series) × Nat :=
  match lookupKey (pyUpper symbol) PAIR_MAP with
  | none => (Except.error "Unsupported symbol", 0)
  | some _ =>
      if end_ts ≤ start_ts then (Except.error "Bad time range", 0)
      else
        match krakenLoop start_ts end_ts responses 40 0 start_ts [] with
        | (Except.error e, calls) => (Except.error e, calls)
        | (Except.ok out, calls) =>
            if out = [] then
              (Except.error "Kraken returned empty data for this range", calls)
            else (Except.ok (normalizeOut out), calls)

/-! ## app2.py — the per-session caches

```python
if token_id not in st.session_state.history_cache:
    hist = fetch_token_price_history(token_id, interval="max", fidelity_min=int(fidelity))
    st.session_state.history_cache[token_id] = pd.Series(vals, index=idx).sort_index()
series_map[label] = st.session_state.history_cache[token_id]
```

and, for the crypto overlay, lookup under `(sym, start_ts, end_ts)`
with the fetch inside a `try` block.  A connector is a fallible
function; each step returns the result, the updated cache, and the
number of connector invocations (0 or 1). -/

/-- One pass of the history-cache logic for one selected token: the
cache is keyed by `token_id` alone, the fidelity is only forwarded to
the connector. -/
def historyStep (cache : List (String × Series)) (token_id : String) (fidelity : Nat)
    (fetchFn : String → Nat → Except String Series) :
    (Except String Series) × List (String × Series) × Nat :=
  match lookupKey token_id cache with
  | some s => (Except.ok s, cache, 0)
  | none =>
      match fetchFn token_id fidelity with
      | Except.error e => (Except.error e, cache, 1)
      | Except.ok hist =>
          let s := sortByTs hist
          (Except.ok s, (token_id, s) :: cache, 1)

/-- The crypto cache key `(symbol, start_ts, end_ts)`. -/
abbrev CKey : Type := String × Int × Int

/-- One pass of the crypto-cache logic. -/
def cryptoStep (cache : List (CKey × Series)) (key : CKey)
    (fetchFn : CKey → Except String Series) :
    (Except String Series) × List (CKey × Series) × Nat :=
  match lookupKey key cache with
  | some s => (Except.ok s, cache, 0)
  | none =>
      match fetchFn key with
      | Except.error e => (Except.error e, cache, 1)
      | Except.ok hist =>
          let s := sortByTs hist
          (Except.ok s, (key, s) :: cache, 1)

/-! ## Concrete instruments used by witnesses and counterexamples -/

/-- A stub connector for the history cache that always succeeds. -/
def okFetchH : String → Nat → Except String Series :=
  fun _ _ => Except.ok [(1, 1)]

/-- A stub connector for the crypto cache that always succeeds. -/
def okFetchC : CKey → Except String Series :=
  fun _ => Except.ok [(1, 1)]

/-- A stub connector whose result encodes the fidelity it was called
with, so the two fidelities yield observably different series. -/
def fidelityFetch : String → Nat → Except String Series :=
  fun _ fid => Except.ok [((fid : Int), 1)]

/-- A stub connector for the history cache that always fails. -/
def failFetchH : String → Nat → Except String Series :=
  fun _ _ => Except.error "boom"

/-- A stub connector for the crypto cache that always fails. -/
def failFetchC : CKey → Except String Series :=
  fun _ => Except.error "boom"

/-- An upstream 200 body holding the same timestamp twice with two
different close prices. -/
def dupTsResp : Nat → KrakenResp :=
  fun _ => KrakenResp.ok ⟨[], some [(5, 1), (5, 2)], none⟩

/-- Series A of the spec's alignment example. -/
def exA : Series := [(0, 0.2), (10, 0.5)]

/-- Series B of the spec's alignment example. -/
def exB : Series := [(5, 0.1), (15, 0.9)]

/-- The forward-fill carry that corresponds to having processed every
union timestamp up to `u` (`none` at the start). -/
def carrySpec (s : Series) : Option Int → Option ℚ
  | none => none
  | some u0 => mostRecentAt s u0

/-- `beyond u x`: the timestamp `x` lies strictly after the processed
region ending at `u` (everything, at the start). -/
def beyond (u : Option Int) (x : Int) : Prop :=
  match u with
  | none => True
  | some u0 => u0 < x

instance : IsTotal Point (fun a b : Point => a.1 ≤ b.1) :=
  ⟨fun a b => Int.le_total a.1 b.1⟩

instance : IsTrans Point (fun a b : Point => a.1 ≤ b.1) :=
  ⟨fun _ _ _ h1 h2 => le_trans h1 h2⟩

/-! ## Theorems -/

/-- C4: for every query key, when the connector succeeds on it, two
fetch-through-cache passes with the unchanged key issue at most one
network call in total: the first pass issues at most one, the second
issues none, returns the stored series, and observes the same result
as the first — on both the history cache and the crypto cache. -/
theorem cache_second_call_no_network
    (hcache : List (String × Series)) (tok : String) (fid : Nat)
    (hfetch : String → Nat → Except String Series)
    (ccache : List (CKey × Series)) (ckey : CKey)
    (cfetch : CKey → Except String Series)
    (hok : ∃ s, hfetch tok fid = Except.ok s)
    (cok : ∃ s, cfetch ckey = Except.ok s) :
    ((historyStep hcache tok fid hfetch).2.2 ≤ 1 ∧
      (historyStep (historyStep hcache tok fid hfetch).2.1 tok fid hfetch).2.2 = 0 ∧
      (historyStep (historyStep hcache tok fid hfetch).2.1 tok fid hfetch).1 =
        (historyStep hcache tok fid hfetch).1) ∧
    ((cryptoStep ccache ckey cfetch).2.2 ≤ 1 ∧
      (cryptoStep (cryptoStep ccache ckey cfetch).2.1 ckey cfetch).2.2 = 0 ∧
      (cryptoStep (cryptoStep ccache ckey cfetch).2.1 ckey cfetch).1 =
        (cryptoStep ccache ckey cfetch).1) := by
  constructor
  · rcases hok with ⟨s, hs⟩
    cases h : lookupKey tok hcache with
    | some v => simp [historyStep, h]
    | none => simp [historyStep, h, hs, lookupKey]
  · rcases cok with ⟨s, hs⟩
    cases h : lookupKey ckey ccache with
    | some v => simp [cryptoStep, h]
    | none => simp [cryptoStep, h, hs, lookupKey]

/-- Witness for C4 at concrete inputs. -/
theorem cache_second_call_no_network_witness :
    ((historyStep [] "tok" 10 okFetchH).2.2 ≤ 1 ∧
      (historyStep (historyStep [] "tok" 10 okFetchH).2.1 "tok" 10 okFetchH).2.2 = 0 ∧
      (historyStep (historyStep [] "tok" 10 okFetchH).2.1 "tok" 10 okFetchH).1 =
        (historyStep [] "tok" 10 okFetchH).1) ∧
    ((cryptoStep [] ("BTC", 0, 10) okFetchC).2.2 ≤ 1 ∧
      (cryptoStep (cryptoStep [] ("BTC", 0, 10) okFetchC).2.1 ("BTC", 0, 10) okFetchC).2.2 = 0 ∧
      (cryptoStep (cryptoStep [] ("BTC", 0, 10) okFetchC).2.1 ("BTC", 0, 10) okFetchC).1 =
        (cryptoStep [] ("BTC", 0, 10) okFetchC).1) :=
  cache_second_call_no_network [] "tok" 10 okFetchH [] ("BTC", 0, 10) okFetchC
    ⟨[(1, 1)], rfl⟩ ⟨[(1, 1)], rfl⟩

/-- C5, counterexample to the claim as stated: with an empty cache, a
connector whose answer depends on the fidelity, and two requests for
the same token at fidelities 10 and 20, the second request makes zero
connector calls (not a fresh one) and returns the series cached under
fidelity 10, although the connector would return a different series at
fidelity 20. -/
theorem history_cache_fidelity_cex :
    (historyStep ((historyStep [] "tok" 10 fidelityFetch).2.1) "tok" 20 fidelityFetch).2.2 = 0 ∧
    (historyStep ((historyStep [] "tok" 10 fidelityFetch).2.1) "tok" 20 fidelityFetch).1 =
      Except.ok [(10, 1)] ∧
    fidelityFetch "tok" 20 = Except.ok [(20, 1)] :=
  ⟨rfl, rfl, rfl⟩

/-- C5 amended: the history cache's key is the token identifier alone;
after a miss resolved at fidelity `f1`, a request for the same token
at any fidelity `f2` is a hit that makes no connector call and returns
the series stored under `f1`. -/
theorem history_cache_key_is_token_only
    (cache : List (String × Series)) (tok : String) (f1 f2 : Nat)
    (fetchFn : String → Nat → Except String Series) (hist : Series)
    (hmiss : lookupKey tok cache = none) (hok : fetchFn tok f1 = Except.ok hist) :
    (historyStep cache tok f1 fetchFn).2.2 = 1 ∧
    (historyStep (historyStep cache tok f1 fetchFn).2.1 tok f2 fetchFn).2.2 = 0 ∧
    (historyStep (historyStep cache tok f1 fetchFn).2.1 tok f2 fetchFn).1 =
      Except.ok (sortByTs hist) := by
  simp [historyStep, hmiss, hok, lookupKey]

/-- Witness for the amended C5 at concrete inputs. -/
theorem history_cache_key_is_token_only_witness :
    (historyStep [] "tok" 10 fidelityFetch).2.2 = 1 ∧
    (historyStep (historyStep [] "tok" 10 fidelityFetch).2.1 "tok" 20 fidelityFetch).2.2 = 0 ∧
    (historyStep (historyStep [] "tok" 10 fidelityFetch).2.1 "tok" 20 fidelityFetch).1 =
      Except.ok (sortByTs [(10, 1)]) :=
  history_cache_key_is_token_only [] "tok" 10 20 fidelityFetch [(10, 1)] rfl rfl

/-- C9: when the connector invocation for a missing key fails, the
cache is returned unchanged — no entry is stored under the key — and a
later request for the same key invokes the connector again (one fresh
call), on both the history cache and the crypto cache. -/
theorem failed_fetch_leaves_cache
    (cache : List (String × Series)) (tok : String) (fid : Nat)
    (fetchFn : String → Nat → Except String Series) (e : String)
    (ccache : List (CKey × Series)) (key : CKey)
    (cfetch : CKey → Except String Series) (e2 : String)
    (hmiss : lookupKey tok cache = none) (hfail : fetchFn tok fid = Except.error e)
    (cmiss : lookupKey key ccache = none) (cfail : cfetch key = Except.error e2) :
    (historyStep cache tok fid fetchFn = (Except.error e, cache, 1) ∧
      (historyStep (historyStep cache tok fid fetchFn).2.1 tok fid fetchFn).2.2 = 1) ∧
    (cryptoStep ccache key cfetch = (Except.error e2, ccache, 1) ∧
      (cryptoStep (cryptoStep ccache key cfetch).2.1 key cfetch).2.2 = 1) := by
  constructor
  · constructor
    · simp [historyStep, hmiss, hfail]
    · simp [historyStep, hmiss, hfail]
  · constructor
    · simp [cryptoStep, cmiss, cfail]
    · simp [cryptoStep, cmiss, cfail]

/-- Witness for C9 at concrete inputs. -/
theorem failed_fetch_leaves_cache_witness :
    (historyStep [] "tok" 10 failFetchH = (Except.error "boom", [], 1) ∧
      (historyStep (historyStep [] "tok" 10 failFetchH).2.1 "tok" 10 failFetchH).2.2 = 1) ∧
    (cryptoStep [] ("BTC", 0, 10) failFetchC = (Except.error "boom", [], 1) ∧
      (cryptoStep (cryptoStep [] ("BTC", 0, 10) failFetchC).2.1 ("BTC", 0, 10) failFetchC).2.2
        = 1) :=
  failed_fetch_leaves_cache [] "tok" 10 failFetchH "boom" [] ("BTC", 0, 10) failFetchC "boom"
    rfl rfl rfl rfl

/-- A successful `fetch_token_price_history` returns exactly the
well-formed points of the upstream history. -/
theorem fetch_token_ok_eq {hist : List RawPoint} {l : Series}
    (h : fetch_token_price_history hist = Except.ok l) : l = wellFormedPoints hist := by
  simp only [fetch_token_price_history] at h
  split at h
  · simp at h
  · simp only [Except.ok.injEq] at h
    exact h.symm

/-- `normalizeOut` preserves the length of the deduplicated list. -/
theorem normalizeOut_length (out : Series) : (normalizeOut out).length = out.dedup.length :=
  (List.perm_insertionSort _ _).length_eq

/-- `normalizeOut` of a non-empty list is non-empty. -/
theorem normalizeOut_ne_nil {out : Series} (h : out ≠ []) : normalizeOut out ≠ [] := by
  intro hcontra
  apply h
  have hlen := congrArg List.length hcontra
  rw [normalizeOut_length] at hlen
  simp only [List.length_nil] at hlen
  exact (List.dedup_eq_nil out).mp (List.length_eq_zero.mp hlen)

/-- A successful `fetch_crypto_price_range` returns the normalized
form of a non-empty accumulated list. -/
theorem crypto_ok_normalized {symbol : String} {s e : Int} {resp : Nat → KrakenResp}
    {l : Series} (h : (fetch_crypto_price_range symbol s e resp).1 = Except.ok l) :
    ∃ out : Series, out ≠ [] ∧ l = normalizeOut out := by
  unfold fetch_crypto_price_range at h
  rcases hk : lookupKey (pyUpper symbol) PAIR_MAP with _ | pair
  · rw [hk] at h
    simp at h
  · rw [hk] at h
    by_cases hr : e ≤ s
    · rw [if_pos hr] at h
      simp at h
    · rw [if_neg hr] at h
      rcases hl : krakenLoop s e resp 40 0 s [] with ⟨res, calls⟩
      rw [hl] at h
      cases res with
      | error e2 => simp at h
      | ok out =>
          by_cases ho : out = []
          · simp only [ho, if_pos rfl] at h
            simp at h
          · simp only [if_neg ho] at h
            simp only [Except.ok.injEq] at h
            exact ⟨out, ho, h.symm⟩

/-- C7: a fetch that ends with zero usable points raises rather than
returning an empty series: whenever either connector returns
successfully, the returned canonical series is non-empty. -/
theorem empty_fetch_raises :
    (∀ (hist : List RawPoint) (l : Series),
        fetch_token_price_history hist = Except.ok l → l ≠ []) ∧
    (∀ (symbol : String) (s e : Int) (resp : Nat → KrakenResp) (l : Series),
        (fetch_crypto_price_range symbol s e resp).1 = Except.ok l → l ≠ []) := by
  constructor
  · intro hist l h
    have hl := fetch_token_ok_eq h
    intro hnil
    have hwf : wellFormedPoints hist = [] := by
      rw [← hl, hnil]
    simp [fetch_token_price_history, hwf] at h
  · intro symbol s e resp l h
    rcases crypto_ok_normalized h with ⟨out, hne, rfl⟩
    exact normalizeOut_ne_nil hne

/-- Witness for C7 at concrete inputs: both connectors succeed with a
non-empty series. -/
theorem empty_fetch_raises_witness :
    ([((1 : Int), (1 : ℚ))] : Series) ≠ [] ∧
    (normalizeOut [((1 : Int), (1 : ℚ))] : Series) ≠ [] :=
  ⟨empty_fetch_raises.1 [(some 1, some 1)] [(1, 1)] rfl,
   empty_fetch_raises.2 "BTC" 0 10 (fun _ => KrakenResp.ok ⟨[], some [(1, 1)], none⟩)
     (normalizeOut [(1, 1)]) rfl⟩

/-- C8, counterexample to the claim as stated: the connector performs
no range validation on prices, so an accepted upstream response whose
single point has price 2 yields a returned point whose price is
outside the interval `[0,1]`. -/
theorem price_unit_interval_cex :
    fetch_token_price_history [(some 1, some 2)] = Except.ok [(1, 2)] ∧
    ¬ ((0 : ℚ) ≤ 2 ∧ (2 : ℚ) ≤ 1) := by
  constructor
  · rfl
  · intro hcon
    exact absurd hcon.2 (by norm_num)

/-- C8 amended: returned prices lie in `[0,1]` exactly when the
well-formed upstream points do — the connector passes prices through,
so the bound holds for every upstream response whose present price
fields are in `[0,1]`. -/
theorem prices_in_unit_interval_of_upstream
    (hist : List RawPoint)
    (hbound : ∀ pt ∈ hist, ∀ p : ℚ, pt.2 = some p → 0 ≤ p ∧ p ≤ 1)
    (l : Series) (hok : fetch_token_price_history hist = Except.ok l) :
    ∀ q ∈ l, 0 ≤ q.2 ∧ q.2 ≤ 1 := by
  have hl := fetch_token_ok_eq hok
  subst hl
  intro q hq
  rcases List.mem_filterMap.mp hq with ⟨pt, hpt, hmap⟩
  rcases pt with ⟨ot, op⟩
  cases ot with
  | none => simp [wellFormedPoints] at hmap
  | some t =>
      cases op with
      | none => simp [wellFormedPoints] at hmap
      | some p =>
          simp only [Option.some.injEq] at hmap
          have hq2 : q.2 = p := by
            rw [← hmap]
          exact hq2 ▸ hbound (some t, some p) hpt p rfl

/-- Witness for the amended C8 at a concrete input and point. -/
theorem prices_in_unit_interval_of_upstream_witness :
    0 ≤ ((((1 : Int), (1 : ℚ)) : Point)).2 ∧ ((((1 : Int), (1 : ℚ)) : Point)).2 ≤ 1 :=
  prices_in_unit_interval_of_upstream [(some 1, some 1)]
    (by
      intro pt hpt p hp
      rw [List.mem_singleton] at hpt
      subst hpt
      injection hp with hp
      subst hp
      norm_num)
    [(1, 1)] rfl (1, 1) (List.mem_singleton_self _)

/-- C10: the connector silently skips upstream points with a missing
timestamp or price field: it succeeds with exactly the well-formed
points whenever at least one remains, and every returned point
corresponds to a well-formed upstream entry. -/
theorem malformed_points_skipped (hist : List RawPoint) :
    (wellFormedPoints hist ≠ [] →
      fetch_token_price_history hist = Except.ok (wellFormedPoints hist)) ∧
    (∀ l, fetch_token_price_history hist = Except.ok l →
      ∀ q ∈ l, ((some q.1, some q.2) : RawPoint) ∈ hist) := by
  constructor
  · intro hne
    unfold fetch_token_price_history
    simp only [if_neg hne]
  · intro l hok q hq
    have hl := fetch_token_ok_eq hok
    subst hl
    rcases List.mem_filterMap.mp hq with ⟨pt, hpt, hmap⟩
    rcases pt with ⟨ot, op⟩
    cases ot with
    | none => simp [wellFormedPoints] at hmap
    | some t =>
        cases op with
        | none => simp [wellFormedPoints] at hmap
        | some p =>
            simp only [Option.some.injEq] at hmap
            have : ((some q.1, some q.2) : RawPoint) = (some t, some p) := by
              rw [← hmap]
            rw [this]
            exact hpt

/-- Witness for C10 at a concrete input with one malformed and one
well-formed point. -/
theorem malformed_points_skipped_witness :
    (fetch_token_price_history [(none, some 5), (some 2, some 3)] =
      Except.ok (wellFormedPoints [(none, some 5), (some 2, some 3)])) ∧
    ∀ q ∈ ([(2, 3)] : Series),
      ((some q.1, some q.2) : RawPoint) ∈ [(none, some 5), (some 2, some 3)] :=
  ⟨(malformed_points_skipped [(none, some 5), (some 2, some 3)]).1 (by decide),
   (malformed_points_skipped [(none, some 5), (some 2, some 3)]).2 [(2, 3)] rfl⟩

/-- Each run of the pagination loop issues at most `fuel` further
requests beyond those already counted. -/
theorem krakenLoop_calls_le (start_ts end_ts : Int) (responses : Nat → KrakenResp) :
    ∀ (fuel calls : Nat) (since : Int) (out : Series),
      (krakenLoop start_ts end_ts responses fuel calls since out).2 ≤ calls + fuel := by
  intro fuel
  induction fuel with
  | zero =>
      intro calls since out
      simp [krakenLoop]
  | succ n ih =>
      intro calls since out
      unfold krakenLoop
      cases responses calls with
      | status429 => exact (ih _ _ _).trans (by omega)
      | statusErr code => dsimp only; omega
      | ok body =>
          dsimp only
          by_cases he : body.err ≠ []
          · rw [if_pos he]
            dsimp only
            omega
          · rw [if_neg he]
            by_cases ho : body.ohlc.getD [] = []
            · rw [if_pos ho]
              dsimp only
              omega
            · rw [if_neg ho]
              cases hlast : body.last with
              | none => dsimp only; omega
              | some lastC =>
                  dsimp only
                  by_cases h0 : lastC = 0
                  · rw [if_pos h0]
                    dsimp only
                    omega
                  · rw [if_neg h0]
                    by_cases hle : lastC ≤ since
                    · rw [if_pos hle]
                      dsimp only
                      omega
                    · rw [if_neg hle]
                      by_cases hend : end_ts < lastC
                      · rw [if_pos hend]
                        dsimp only
                        omega
                      · rw [if_neg hend]
                        exact (ih _ _ _).trans (by omega)

/-- C6: for every upstream behaviour the OHLC pagination makes at most
40 requests, and an `ok` response whose `last` cursor does not advance
past the current `since` ends the loop right after that request. -/
theorem pagination_bounded :
    (∀ (symbol : String) (s e : Int) (resp : Nat → KrakenResp),
        (fetch_crypto_price_range symbol s e resp).2 ≤ 40) ∧
    (∀ (s e : Int) (resp : Nat → KrakenResp) (fuel calls : Nat) (since : Int)
        (out : Series) (body : KrakenOk) (lastC : Int),
        resp calls = KrakenResp.ok body → body.err = [] → body.ohlc.getD [] ≠ [] →
        body.last = some lastC → lastC ≤ since →
        (krakenLoop s e resp (fuel + 1) calls since out).2 = calls + 1) := by
  constructor
  · intro symbol s e resp
    unfold fetch_crypto_price_range
    cases hk : lookupKey (pyUpper symbol) PAIR_MAP with
    | none => simp
    | some pair =>
        by_cases hr : e ≤ s
        · rw [if_pos hr]
          simp
        · rw [if_neg hr]
          rcases hl : krakenLoop s e resp 40 0 s [] with ⟨res, calls⟩
          have hb := krakenLoop_calls_le s e resp 40 0 s []
          rw [hl] at hb
          cases res with
          | error e2 => simpa using hb
          | ok out =>
              dsimp only
              by_cases ho : out = []
              · rw [if_pos ho]
                simpa using hb
              · rw [if_neg ho]
                simpa using hb
  · intro s e resp fuel calls since out body lastC hresp herr hohlc hlast hle
    unfold krakenLoop
    rw [hresp]
    dsimp only
    rw [if_neg (by simp [herr]), if_neg hohlc, hlast]
    dsimp only
    by_cases h0 : lastC = 0
    · rw [if_pos h0]
    · rw [if_neg h0, if_pos hle]

/-- Witness for C6 at concrete inputs: endless 429s exhaust the cap,
and a non-advancing cursor stops after one request. -/
theorem pagination_bounded_witness :
    (fetch_crypto_price_range "BTC" 0 10 (fun _ => KrakenResp.status429)).2 ≤ 40 ∧
    (krakenLoop 0 10 (fun _ => KrakenResp.ok ⟨[], some [(1, 1)], some 0⟩)
        (0 + 1) 0 0 []).2 = 0 + 1 :=
  ⟨pagination_bounded.1 "BTC" 0 10 (fun _ => KrakenResp.status429),
   pagination_bounded.2 0 10 (fun _ => KrakenResp.ok ⟨[], some [(1, 1)], some 0⟩)
     0 0 0 [] ⟨[], some [(1, 1)], some 0⟩ 0 rfl rfl (by decide) rfl (by decide)⟩

/-- C3, counterexample to the claim as stated: the prediction-market
connector returns upstream order verbatim, so an unsorted upstream
history yields a non-increasing canonical series; and the crypto
connector's `sorted(set(out))` removes only exact duplicate pairs, so
one timestamp carrying two different prices survives normalization with
a repeated (non-strictly-increasing) timestamp. -/
theorem canonical_sorted_cex :
    (fetch_token_price_history [(some 10, some 1), (some 5, some 2)] =
        Except.ok [(10, 1), (5, 2)] ∧
      ¬ StrictTs [(10, 1), (5, 2)]) ∧
    ((fetch_crypto_price_range "BTC" 0 10 dupTsResp).1 = Except.ok [(5, 1), (5, 2)] ∧
      ¬ StrictTs [(5, 1), (5, 2)]) :=
  ⟨⟨rfl, by decide⟩, ⟨rfl, by decide⟩⟩

/-- C3 amended: the crypto connector's canonical series has
non-decreasing (not necessarily strictly increasing) timestamps and no
duplicate `(timestamp, price)` pairs; the prediction-market connector
applies no normalization at all — it returns the well-formed upstream
points verbatim, in upstream order. -/
theorem normalization_amended :
    (∀ (symbol : String) (s e : Int) (resp : Nat → KrakenResp) (l : Series),
        (fetch_crypto_price_range symbol s e resp).1 = Except.ok l →
        List.Sorted (· ≤ ·) (tsOf l) ∧ l.Nodup) ∧
    (∀ (hist : List RawPoint) (l : Series),
        fetch_token_price_history hist = Except.ok l → l = wellFormedPoints hist) := by
  constructor
  · intro symbol s e resp l h
    rcases crypto_ok_normalized h with ⟨out, _, rfl⟩
    constructor
    · have hs : List.Sorted (fun a b : Point => a.1 ≤ b.1) (normalizeOut out) :=
        List.sorted_insertionSort _ _
      exact List.pairwise_map.mpr hs
    · exact ((List.perm_insertionSort _ _).nodup_iff).mpr (List.nodup_dedup _)
  · intro hist l h
    exact fetch_token_ok_eq h

/-- Witness for the amended C3 at concrete inputs. -/
theorem normalization_amended_witness :
    (List.Sorted (· ≤ ·) (tsOf [(5, 1), (5, 2)]) ∧
      ([(5, 1), (5, 2)] : Series).Nodup) ∧
    ([((1 : Int), (1 : ℚ))] : Series) = wellFormedPoints [(some 1, some 1)] :=
  ⟨normalization_amended.1 "BTC" 0 10 dupTsResp [(5, 1), (5, 2)] rfl,
   normalization_amended.2 [(some 1, some 1)] [(1, 1)] rfl⟩

/-- `beyond none` holds everywhere. -/
theorem beyond_none (x : Int) : beyond none x := trivial

/-- `beyond (some u0)` introduction. -/
theorem beyond_some {u0 x : Int} (h : u0 < x) : beyond (some u0) x := h

/-- `beyond (some u0)` elimination. -/
theorem beyond_some_elim {u0 x : Int} (h : beyond (some u0) x) : u0 < x := h

/-- Splitting the canonical-series invariant at a cons cell. -/
theorem strictTs_cons {p : Point} {rest : Series} (h : StrictTs (p :: rest)) :
    StrictTs rest ∧ ∀ q ∈ rest, p.1 < q.1 := by
  unfold StrictTs tsOf at h
  rw [List.map_cons, List.sorted_cons] at h
  refine ⟨h.2, ?_⟩
  intro q hq
  exact h.1 q.1 (List.mem_map_of_mem _ hq)

/-- The forward fill is absent exactly when `t` precedes every point
of the series. -/
theorem mostRecentAt_none_iff (s : Series) (t : Int) :
    mostRecentAt s t = none ↔ ∀ p ∈ s, t < p.1 := by
  induction s with
  | nil => simp [mostRecentAt]
  | cons p rest ih =>
      rcases p with ⟨u, v⟩
      simp only [mostRecentAt]
      by_cases h : u ≤ t
      · rw [if_pos h]
        apply iff_of_false
        · cases hmr : mostRecentAt rest t with
          | some w => simp
          | none => simp
        · intro hall
          have ht : t < u := hall (u, v) (List.mem_cons_self _ _)
          omega
      · rw [if_neg h]
        rw [ih]
        constructor
        · intro hall p2 hp2
          rcases List.mem_cons.mp hp2 with heq | hin
          · subst heq
            show t < u
            omega
          · exact hall p2 hin
        · intro hall p2 hin
          exact hall p2 (List.mem_cons_of_mem _ hin)

/-- On a canonical (strictly sorted) series, the forward fill at the
timestamp of one of its own points is that point's value. -/
theorem mostRecentAt_eq_of_mem :
    ∀ (s : Series), StrictTs s → ∀ (t : Int) (v : ℚ), (t, v) ∈ s →
      mostRecentAt s t = some v
  | [], _, t, v, hmem => by simp at hmem
  | (u, w) :: rest, hs, t, v, hmem => by
      rcases List.mem_cons.mp hmem with heq | hin
      · injection heq with h1 h2
        subst h1
        subst h2
        simp only [mostRecentAt]
        rw [if_pos (le_refl t)]
        have hnone : mostRecentAt rest t = none :=
          (mostRecentAt_none_iff rest t).mpr (fun q hq => (strictTs_cons hs).2 q hq)
        rw [hnone]
      · have hlt : u < t := (strictTs_cons hs).2 (t, v) hin
        simp only [mostRecentAt]
        rw [if_pos (le_of_lt hlt),
          mostRecentAt_eq_of_mem rest (strictTs_cons hs).1 t v hin]

/-- `reindex` misses `t` exactly when no point carries timestamp `t`. -/
theorem reindexAt_none_iff (s : Series) (t : Int) :
    reindexAt s t = none ↔ ∀ p ∈ s, p.1 ≠ t := by
  induction s with
  | nil => simp [reindexAt]
  | cons p rest ih =>
      rcases p with ⟨u, v⟩
      simp only [reindexAt]
      by_cases h : u = t
      · rw [if_pos h]
        apply iff_of_false (by simp)
        intro hall
        exact hall (u, v) (List.mem_cons_self _ _) h
      · rw [if_neg h]
        rw [ih]
        constructor
        · intro hall p2 hp2
          rcases List.mem_cons.mp hp2 with heq | hin
          · subst heq
            exact h
          · exact hall p2 hin
        · intro hall p2 hin
          exact hall p2 (List.mem_cons_of_mem _ hin)

/-- A `reindex` hit comes from a point of the series. -/
theorem reindexAt_mem : ∀ {s : Series} {t : Int} {v : ℚ},
    reindexAt s t = some v → (t, v) ∈ s := by
  intro s
  induction s with
  | nil => intro t v h; simp [reindexAt] at h
  | cons p rest ih =>
      intro t v h
      rcases p with ⟨u, w⟩
      simp only [reindexAt] at h
      by_cases hu : u = t
      · rw [if_pos hu] at h
        injection h with h
        subst hu
        subst h
        exact List.mem_cons_self _ _
      · rw [if_neg hu] at h
        exact List.mem_cons_of_mem _ (ih h)

/-- When no point of `s` lies in the half-open gap `(u0, t]`, the
forward fill at `t` agrees with the forward fill at `u0`. -/
theorem mostRecentAt_congr_gap :
    ∀ (s : Series) (u0 t : Int), u0 ≤ t → (∀ p ∈ s, p.1 ≤ t → p.1 ≤ u0) →
      mostRecentAt s t = mostRecentAt s u0
  | [], _, _, _, _ => rfl
  | (a, b) :: rest, u0, t, hle, hgap => by
      have hrec := mostRecentAt_congr_gap rest u0 t hle
        (fun p hp hpt => hgap p (List.mem_cons_of_mem _ hp) hpt)
      simp only [mostRecentAt]
      by_cases h : a ≤ u0
      · rw [if_pos (h.trans hle), if_pos h, hrec]
      · have hat : ¬ a ≤ t := fun hat => h (hgap (a, b) (List.mem_cons_self _ _) hat)
        rw [if_neg hat, if_neg h, hrec]

/-- Core correctness of `reindex(idx).ffill()`: walking a strictly
sorted index that contains every remaining timestamp of the strictly
sorted series `s`, with the carry equal to the fill at the already
processed region, produces the spec-side forward fill at every index
label. -/
theorem ffillFrom_eq {s : Series} (hs : StrictTs s) :
    ∀ (idx : List Int) (u : Option Int) (carry : Option ℚ),
      List.Sorted (· < ·) idx →
      carry = carrySpec s u →
      (∀ p ∈ s, beyond u p.1 → p.1 ∈ idx) →
      (∀ x ∈ idx, beyond u x) →
      ffillFrom s carry idx = idx.map (fun t => (t, mostRecentAt s t)) := by
  intro idx
  induction idx with
  | nil =>
      intro u carry _ _ _ _
      rfl
  | cons t rest ih =>
      intro u carry hsort hcarry hcover hbelow
      have hsort2 := (List.sorted_cons.mp hsort).2
      have htrest : ∀ x ∈ rest, t < x := (List.sorted_cons.mp hsort).1
      have hv : (match reindexAt s t with
                 | some p => some p
                 | none => carry) = mostRecentAt s t := by
        cases hr : reindexAt s t with
        | some p => exact (mostRecentAt_eq_of_mem s hs t p (reindexAt_mem hr)).symm
        | none =>
            have hnotin : ∀ p ∈ s, p.1 ≠ t := (reindexAt_none_iff s t).mp hr
            cases u with
            | none =>
                rw [hcarry]
                show carrySpec s none = mostRecentAt s t
                symm
                rw [show carrySpec s none = none from rfl, mostRecentAt_none_iff]
                intro p hp
                have hpin := hcover p hp (beyond_none p.1)
                rcases List.mem_cons.mp hpin with heq | hin
                · exact absurd heq (hnotin p hp)
                · exact htrest p.1 hin
            | some u0 =>
                rw [hcarry]
                show carrySpec s (some u0) = mostRecentAt s t
                rw [show carrySpec s (some u0) = mostRecentAt s u0 from rfl]
                symm
                apply mostRecentAt_congr_gap s u0 t
                · exact le_of_lt (beyond_some_elim (hbelow t (List.mem_cons_self _ _)))
                · intro p hp hpt
                  by_contra hgt
                  push_neg at hgt
                  have hpin := hcover p hp (beyond_some hgt)
                  rcases List.mem_cons.mp hpin with heq | hin
                  · exact hnotin p hp heq
                  · have := htrest p.1 hin
                    omega
      simp only [ffillFrom]
      rw [hv, List.map_cons]
      refine congrArg (List.cons _) ?_
      refine ih (some t) (mostRecentAt s t) hsort2 rfl ?_ ?_
      · intro p hp hbey
        have htp : t < p.1 := beyond_some_elim hbey
        have hbu : beyond u p.1 := by
          cases u with
          | none => exact beyond_none _
          | some u0 =>
              have hu0t : u0 < t := beyond_some_elim (hbelow t (List.mem_cons_self _ _))
              exact beyond_some (hu0t.trans htp)
        have hpin := hcover p hp hbu
        rcases List.mem_cons.mp hpin with heq | hin
        · omega
        · exact hin
      · intro x hx
        exact beyond_some (htrest x hx)

/-- The union index is strictly sorted. -/
theorem unionIndex_sorted (l : List Series) : List.Sorted (· < ·) (unionIndex l) := by
  have hperm : List.Perm (unionIndex l) ((l.map tsOf).flatten.dedup) :=
    List.perm_insertionSort _ _
  have hsorted : List.Sorted (· ≤ ·) (unionIndex l) := List.sorted_insertionSort _ _
  have hnodup : (unionIndex l).Nodup := hperm.nodup_iff.mpr (List.nodup_dedup _)
  exact hsorted.lt_of_le hnodup

/-- Membership in the union index: exactly the timestamps of the input
series, none discarded, none added. -/
theorem mem_unionIndex {l : List Series} {t : Int} :
    t ∈ unionIndex l ↔ ∃ s ∈ l, t ∈ tsOf s := by
  unfold unionIndex
  rw [(List.perm_insertionSort _ _).mem_iff, List.mem_dedup, List.mem_flatten]
  constructor
  · rintro ⟨a, ha, hta⟩
    rcases List.mem_map.mp ha with ⟨s, hs, rfl⟩
    exact ⟨s, hs, hta⟩
  · rintro ⟨s, hs, hts⟩
    exact ⟨tsOf s, List.mem_map_of_mem _ hs, hts⟩

/-- A column of the aligned frame over the union index is exactly the
spec-side forward fill at every union timestamp. -/
theorem reindexFfill_union (l : List Series) {s : Series} (hs : StrictTs s) (hmem : s ∈ l) :
    reindexFfill s (unionIndex l) = (unionIndex l).map (fun t => (t, mostRecentAt s t)) := by
  refine ffillFrom_eq hs (unionIndex l) none none (unionIndex_sorted l) rfl ?_ ?_
  · intro p hp _
    exact mem_unionIndex.mpr ⟨s, hmem, List.mem_map_of_mem _ hp⟩
  · intro x _
    exact beyond_none x

/-- C2: for a non-empty mapping of canonical series, the aligned frame
rows are exactly the sorted union of the input timestamps (none
discarded, none added); every column holds, at each union timestamp,
the most recent value of its own series at or before it, and is absent
exactly at timestamps strictly before its series' first point; and the
spec's concrete A/B example evaluates to the stated frame. -/
theorem align_union_ffill (series_map : List (String × Series))
    (_hne : series_map ≠ [])
    (hsorted : ∀ ls ∈ series_map, StrictTs ls.2) :
    ((build_step_aligned_df series_map).1 = unionIndex (series_map.map Prod.snd) ∧
     List.Sorted (· < ·) (build_step_aligned_df series_map).1 ∧
     (∀ t : Int, t ∈ (build_step_aligned_df series_map).1 ↔
        ∃ ls ∈ series_map, t ∈ tsOf ls.2) ∧
     (build_step_aligned_df series_map).2 =
       series_map.map (fun ls => (ls.1,
         (build_step_aligned_df series_map).1.map (fun t => (t, mostRecentAt ls.2 t)))) ∧
     (∀ ls ∈ series_map, ∀ (t : Int) (p0 : Point), ls.2.head? = some p0 →
        (mostRecentAt ls.2 t = none ↔ t < p0.1))) ∧
    build_step_aligned_df [("A", exA), ("B", exB)] =
      ([0, 5, 10, 15],
       [("A", [(0, some 0.2), (5, some 0.2), (10, some 0.5), (15, some 0.5)]),
        ("B", [(0, none), (5, some 0.1), (10, some 0.1), (15, some 0.9)])]) := by
  constructor
  · refine ⟨rfl, unionIndex_sorted _, ?_, ?_, ?_⟩
    · intro t
      rw [show (build_step_aligned_df series_map).1 =
            unionIndex (series_map.map Prod.snd) from rfl, mem_unionIndex]
      constructor
      · rintro ⟨s, hs, hts⟩
        rcases List.mem_map.mp hs with ⟨ls, hls, rfl⟩
        exact ⟨ls, hls, hts⟩
      · rintro ⟨ls, hls, hts⟩
        exact ⟨ls.2, List.mem_map_of_mem _ hls, hts⟩
    · rw [show (build_step_aligned_df series_map).2 =
            series_map.map (fun nv => (nv.1,
              reindexFfill nv.2 (unionIndex (series_map.map Prod.snd)))) from rfl]
      apply List.map_congr_left
      intro ls hls
      rw [reindexFfill_union (series_map.map Prod.snd) (hsorted ls hls)
        (List.mem_map_of_mem _ hls)]
      rfl
    · intro ls hls t p0 hhead
      have hsls := hsorted ls hls
      rcases hs2 : ls.2 with _ | ⟨q, tail⟩
      · rw [hs2] at hhead
        simp at hhead
      · rw [hs2] at hhead hsls
        simp only [List.head?_cons, Option.some.injEq] at hhead
        subst hhead
        rw [mostRecentAt_none_iff]
        constructor
        · intro hall
          exact hall _ (List.mem_cons_self _ _)
        · intro hlt p hp
          rcases List.mem_cons.mp hp with heq | hin
          · subst heq
            exact hlt
          · exact hlt.trans ((strictTs_cons hsls).2 p hin)
  · norm_num [build_step_aligned_df, unionIndex, tsOf, reindexFfill, ffillFrom,
      reindexAt, exA, exB, List.insertionSort, List.orderedInsert, List.dedup]

/-- Witness for C2 at the spec's concrete example. -/
theorem align_union_ffill_witness :
    ((build_step_aligned_df [("A", exA), ("B", exB)]).1 =
        unionIndex ([("A", exA), ("B", exB)].map Prod.snd) ∧
     List.Sorted (· < ·) (build_step_aligned_df [("A", exA), ("B", exB)]).1 ∧
     (∀ t : Int, t ∈ (build_step_aligned_df [("A", exA), ("B", exB)]).1 ↔
        ∃ ls ∈ [("A", exA), ("B", exB)], t ∈ tsOf ls.2) ∧
     (build_step_aligned_df [("A", exA), ("B", exB)]).2 =
       [("A", exA), ("B", exB)].map (fun ls => (ls.1,
         (build_step_aligned_df [("A", exA), ("B", exB)]).1.map
           (fun t => (t, mostRecentAt ls.2 t)))) ∧
     (∀ ls ∈ [("A", exA), ("B", exB)], ∀ (t : Int) (p0 : Point), ls.2.head? = some p0 →
        (mostRecentAt ls.2 t = none ↔ t < p0.1))) ∧
    build_step_aligned_df [("A", exA), ("B", exB)] =
      ([0, 5, 10, 15],
       [("A", [(0, some 0.2), (5, some 0.2), (10, some 0.5), (15, some 0.5)]),
        ("B", [(0, none), (5, some 0.1), (10, some 0.1), (15, some 0.9)])]) :=
  align_union_ffill [("A", exA), ("B", exB)] (List.cons_ne_nil _ _) (by decide)

/-- Looking a key up in a keyed map built over the index retrieves the
function value at that key, for any key of the index. -/
theorem colValueAt_map (f : Int → Option ℚ) :
    ∀ (idx : List Int) (t : Int), t ∈ idx →
      colValueAt (idx.map (fun u => (u, f u))) t = f t
  | [], t, h => absurd h (List.not_mem_nil t)
  | u :: rest, t, h => by
      simp only [List.map_cons, colValueAt]
      by_cases hu : u = t
      · rw [if_pos hu, hu]
      · rw [if_neg hu]
        refine colValueAt_map f rest t ?_
        rcases List.mem_cons.mp h with heq | hin
        · exact absurd heq.symm hu
        · exact hin

/-- C1, counterexample to the claim as stated: on the spec's A/B
example the SUM trace is defined at every union row — at timestamp 0,
where column B is still absent (`mostRecentAt exB 0 = none`), it
carries the value 20 (pandas `sum(axis=1)` skips NaN cells) instead of
being undefined as the claim requires. -/
theorem sum_defined_at_sparse_row_cex :
    make_chart_sum (build_step_aligned_df [("A", exA), ("B", exB)]) true =
      some [(0, 20), (5, 30), (10, 60), (15, 140)] ∧
    mostRecentAt exB 0 = none := by
  constructor
  · norm_num [make_chart_sum, make_chart_sum_trace, skipnaSum, colValueAt,
      build_step_aligned_df, unionIndex, tsOf, reindexFfill, ffillFrom, reindexAt,
      exA, exB, List.insertionSort, List.orderedInsert, List.dedup,
      List.filterMap_cons, List.filterMap_nil, List.sum_cons, List.sum_nil]
  · rfl

/-- C1 amended: when the SUM trace is requested with at least two
columns, it is present and carries a value at every union-row
timestamp: 100 times the sum of the columns' defined forward-filled
values there, columns that are still absent contributing nothing (an
all-absent row sums to 0) — the trace is not omitted at rows where
some column is still absent. -/
theorem sum_trace_skipna (series_map : List (String × Series))
    (hsorted : ∀ ls ∈ series_map, StrictTs ls.2)
    (hcols : 2 ≤ series_map.length) :
    make_chart_sum (build_step_aligned_df series_map) true =
      some ((unionIndex (series_map.map Prod.snd)).map
        (fun t => (t, skipnaSum (series_map.map (fun ls => mostRecentAt ls.2 t)) * 100))) := by
  unfold make_chart_sum
  have hlen : (build_step_aligned_df series_map).2.length = series_map.length := by
    simp [build_step_aligned_df]
  rw [if_pos ⟨rfl, by omega⟩]
  refine congrArg some ?_
  unfold make_chart_sum_trace
  apply List.map_congr_left
  intro t ht
  refine congrArg (fun z => (t, z * 100)) ?_
  refine congrArg skipnaSum ?_
  rw [show (build_step_aligned_df series_map).2 =
        series_map.map (fun nv => (nv.1,
          reindexFfill nv.2 (unionIndex (series_map.map Prod.snd)))) from rfl,
      List.map_map]
  apply List.map_congr_left
  intro ls hls
  show colValueAt (reindexFfill ls.2 (unionIndex (series_map.map Prod.snd))) t =
    mostRecentAt ls.2 t
  rw [reindexFfill_union (series_map.map Prod.snd) (hsorted ls hls)
    (List.mem_map_of_mem _ hls)]
  exact colValueAt_map _ _ t ht

/-- Witness for the amended C1 at the spec's concrete example. -/
theorem sum_trace_skipna_witness :
    make_chart_sum (build_step_aligned_df [("A", exA), ("B", exB)]) true =
      some ((unionIndex ([("A", exA), ("B", exB)].map Prod.snd)).map
        (fun t => (t,
          skipnaSum ([("A", exA), ("B", exB)].map (fun ls => mostRecentAt ls.2 t)) * 100))) :=
  sum_trace_skipna [("A", exA), ("B", exB)] (by decide) (by decide)

end PolymarketGrapher
